import Mathlib

/-!
Verification of the counting/ingestion core of `ubucount.py` (eos-phone-home).

The development shallowly embeds:
* `Counter` (class `Counter`, lines 16-36): the per-channel generation
  histogram.  Its `counters` field is a Python list of ints, modelled as
  `List Int`.  Python list indexing admits negative indices and raises
  `IndexError` out of range, so the faithful translation of `Counter.add`
  returns `Option (List Int)` (`none` models an uncaught exception).
* `State.update_from_log` (lines 144-190): the ingestion loop.  Log lines
  are modelled at the outcome of the regex stage (`Line`): either the
  census regex did not match the line, or it matched and yielded the
  timestamp field and the query string.  `time.strptime`/`time.mktime`
  are external library calls; a `Line.matched none q` models a matched
  line whose timestamp field `strptime` rejects (raising `ValueError`),
  `Line.matched (some ts) q` one that parses to epoch time `ts`
  (timestamps are modelled as integers; the code only compares them with
  `<=` and takes `max`).  `time.strftime('%Y-%m-%d', localtime t)` is an
  external library function, passed in as a `dateOf` parameter (none of the
  results below assume anything about it).
-/

namespace Ubucount

/-- Python index resolution for a list of length `len`: `l[i]` is valid iff
`-len ≤ i < len`, negative indices counting from the end. -/
def pyIdx (len : Nat) (i : Int) : Option Nat :=
  if 0 ≤ i then (if i < (len : Int) then some i.toNat else none)
  else (if 0 ≤ (len : Int) + i then some ((len : Int) + i).toNat else none)

/-- Python list read `l[i]`; `none` models an `IndexError`. -/
def pyGet (l : List Int) (i : Int) : Option Int :=
  (pyIdx l.length i).bind (fun n => l.get? n)

/-- Python list write `l[i] = v`; `none` models an `IndexError`. -/
def pySet (l : List Int) (i : Int) (v : Int) : Option (List Int) :=
  (pyIdx l.length i).map (fun n => l.set n v)

namespace Counter

/-- `Counter.add` (lines 20-26), faithful to Python list semantics.

    need_counters = generation + 1 - len(self.counters)
    self.counters += [0] * need_counters          -- [0]*n is [] for n <= 0
    if generation > 0 and self.counters[generation-1] > 0:
        self.counters[generation-1] -= 1
    self.counters[generation] += 1

For `generation < 0` no padding happens and the final `+= 1` indexes from
the end of the list (raising `IndexError` when the list is shorter than
`-generation`); `none` models that uncaught exception. -/
def add (cs : List Int) (generation : Int) : Option (List Int) :=
  let padded := cs ++ List.replicate (generation + 1 - (cs.length : Int)).toNat 0
  let afterDec : Option (List Int) :=
    if 0 < generation then
      match pyGet padded (generation - 1) with
      | none => none
      | some v => if 0 < v then pySet padded (generation - 1) (v - 1) else some padded
    else some padded
  match afterDec with
  | none => none
  | some l2 =>
    match pyGet l2 generation with
    | none => none
    | some v => pySet l2 generation (v + 1)

/-- `Counter.count` (lines 35-36): `reduce(operator.__add__, self.counters)`.
`reduce` without an initial value raises `TypeError` on an empty sequence,
modelled by `none`; on a non-empty list it left-folds `+`. -/
def count (cs : List Int) : Option Int :=
  match cs with
  | [] => none
  | x :: xs => some (xs.foldl (fun a b => a + b) x)

/-- `Counter.add` specialised to the reachable well-typed case: a
non-negative generation and non-negative bucket values (bucket values start
at 0, are incremented, and are decremented only when positive, so they stay
non-negative).  `addN_agrees` below proves this agrees with `add`. -/
def addN (cs : List Nat) (g : Nat) : List Nat :=
  let padded := cs ++ List.replicate (g + 1 - cs.length) 0
  let dec :=
    if 0 < g ∧ 0 < padded.getD (g - 1) 0 then
      padded.set (g - 1) (padded.getD (g - 1) 0 - 1)
    else padded
  dec.set g (dec.getD g 0 + 1)

end Counter

/-! ### List helper lemmas -/

theorem getD_replicate_zero (n i : Nat) : (List.replicate n (0 : Nat)).getD i 0 = 0 := by
  induction n generalizing i with
  | zero => simp [List.getD]
  | succ n _ =>
    cases i with
    | zero => simp [List.replicate]
    | succ i => simp [List.replicate]

theorem getD_append_replicate (cs : List Nat) (n i : Nat) :
    (cs ++ List.replicate n 0).getD i 0 = cs.getD i 0 := by
  induction cs generalizing i with
  | nil => simp only [List.nil_append]; exact getD_replicate_zero n i
  | cons a l ih =>
    cases i with
    | zero => simp [List.getD]
    | succ i => simpa [List.getD] using ih i

theorem getD_set_eq (l : List Nat) (n v : Nat) (h : n < l.length) :
    (l.set n v).getD n 0 = v := by
  induction l generalizing n with
  | nil => simp at h
  | cons a l ih =>
    cases n with
    | zero => simp [List.set]
    | succ n =>
      simp only [List.length_cons, Nat.succ_lt_succ_iff] at h
      simpa [List.set, List.getD] using ih n h

theorem getD_set_ne (l : List Nat) (n m v : Nat) (h : n ≠ m) :
    (l.set n v).getD m 0 = l.getD m 0 := by
  induction l generalizing n m with
  | nil => simp [List.set]
  | cons a l ih =>
    cases n with
    | zero =>
      cases m with
      | zero => exact absurd rfl h
      | succ m => simp [List.set, List.getD]
    | succ n =>
      cases m with
      | zero => simp [List.set, List.getD]
      | succ m =>
        have h' : n ≠ m := fun e => h (by rw [e])
        simpa [List.set, List.getD] using ih n m h'

theorem getD_len_le (l : List Nat) (i : Nat) (h : l.length ≤ i) : l.getD i 0 = 0 := by
  induction l generalizing i with
  | nil => simp [List.getD]
  | cons a l ih =>
    cases i with
    | zero => simp at h
    | succ i =>
      simp only [List.length_cons, Nat.succ_le_succ_iff] at h
      simpa [List.getD] using ih i h

theorem length_pad (cs : List Nat) (g : Nat) :
    (cs ++ List.replicate (g + 1 - cs.length) 0).length = max cs.length (g + 1) := by
  simp only [List.length_append, List.length_replicate]
  omega

/-! ### Pointwise and length characterisation of `Counter.addN` -/

theorem addN_length (cs : List Nat) (g : Nat) :
    (Counter.addN cs g).length = max cs.length (g + 1) := by
  unfold Counter.addN
  simp only [List.length_set]
  split
  · rw [List.length_set, length_pad]
  · rw [length_pad]

theorem addN_getD (cs : List Nat) (g i : Nat) :
    (Counter.addN cs g).getD i 0 =
      if i = g then cs.getD g 0 + 1
      else if 0 < g ∧ i = g - 1 then cs.getD i 0 - 1
      else cs.getD i 0 := by
  unfold Counter.addN
  set P := cs ++ List.replicate (g + 1 - cs.length) 0 with hP
  have hPg : ∀ j, P.getD j 0 = cs.getD j 0 := fun j => getD_append_replicate cs _ j
  have hlen : g < P.length := by
    rw [hP, length_pad]; omega
  by_cases hdec : 0 < g ∧ 0 < P.getD (g - 1) 0
  · have hg1len : g - 1 < P.length := by omega
    have hne : g - 1 ≠ g := by omega
    have hlen2 : g < (P.set (g - 1) (P.getD (g - 1) 0 - 1)).length := by
      rw [List.length_set]; exact hlen
    simp only [if_pos hdec]
    by_cases hig : i = g
    · rw [hig, getD_set_eq _ _ _ hlen2, getD_set_ne _ _ _ _ hne, hPg, if_pos rfl]
    · by_cases hig1 : i = g - 1
      · rw [hig1, getD_set_ne _ _ _ _ (Ne.symm hne)]
        rw [getD_set_eq _ _ _ hg1len, hPg]
        rw [if_neg hne, if_pos ⟨hdec.1, rfl⟩]
      · rw [getD_set_ne _ _ _ _ (fun e => hig e.symm)]
        rw [getD_set_ne _ _ _ _ (fun e => hig1 e.symm), hPg]
        rw [if_neg hig, if_neg (fun hc => hig1 hc.2)]
  · simp only [if_neg hdec]
    by_cases hig : i = g
    · subst hig
      rw [getD_set_eq _ _ _ hlen, hPg, if_pos rfl]
    · rw [getD_set_ne _ _ _ _ (fun e => hig e.symm), hPg, if_neg hig]
      by_cases hc : 0 < g ∧ i = g - 1
      · rw [if_pos hc]
        have : P.getD (g - 1) 0 = 0 := by
          by_contra hz
          exact hdec ⟨hc.1, Nat.pos_of_ne_zero hz⟩
        rw [hPg] at this
        rw [hc.2, this]
      · rw [if_neg hc]

/-! ### Agreement of `Counter.add` and `Counter.addN` on the reachable cases -/

theorem get?_map_getD (l : List Nat) (n : Nat) (h : n < l.length) :
    (l.map fun x : Nat => (x : Int)).get? n = some ((l.getD n 0 : Nat) : Int) := by
  induction l generalizing n with
  | nil => simp at h
  | cons a t ih =>
    cases n with
    | zero => rfl
    | succ n =>
      simp only [List.length_cons, Nat.succ_lt_succ_iff] at h
      simpa [List.get?, List.getD] using ih n h

theorem pyIdx_natCast (len n : Nat) (h : n < len) : pyIdx len (n : Int) = some n := by
  unfold pyIdx
  rw [if_pos (Int.natCast_nonneg n), if_pos (by exact_mod_cast h)]
  simp

theorem pyGet_map (l : List Nat) (n : Nat) (h : n < l.length) :
    pyGet (l.map fun x : Nat => (x : Int)) (n : Int) = some ((l.getD n 0 : Nat) : Int) := by
  unfold pyGet
  rw [List.length_map, pyIdx_natCast _ _ h]
  exact get?_map_getD l n h

theorem pySet_map (l : List Nat) (n v : Nat) (h : n < l.length) :
    pySet (l.map fun x : Nat => (x : Int)) (n : Int) ((v : Nat) : Int)
      = some ((l.set n v).map fun x : Nat => (x : Int)) := by
  unfold pySet
  rw [List.length_map, pyIdx_natCast _ _ h]
  show some ((l.map fun x : Nat => (x : Int)).set n ((v : Nat) : Int))
      = some ((l.set n v).map fun x : Nat => (x : Int))
  rw [List.map_set]

theorem natCast_add_one (n : Nat) : ((n : Int) + 1) = ((n + 1 : Nat) : Int) := by
  push_cast
  ring

theorem addN_agrees (cs : List Nat) (g : Nat) :
    Counter.add (cs.map fun n : Nat => (n : Int)) (g : Int)
      = some ((Counter.addN cs g).map fun n : Nat => (n : Int)) := by
  have hglen : g < (cs ++ List.replicate (g + 1 - cs.length) 0).length := by
    rw [length_pad]; omega
  have hpadlen : ((g : Int) + 1 - ((cs.map fun n : Nat => (n : Int)).length : Int)).toNat
      = g + 1 - cs.length := by
    rw [List.length_map]; omega
  have hpad : (cs.map fun n : Nat => (n : Int))
        ++ List.replicate ((g : Int) + 1 - ((cs.map fun n : Nat => (n : Int)).length : Int)).toNat (0 : Int)
      = (cs ++ List.replicate (g + 1 - cs.length) 0).map fun n : Nat => (n : Int) := by
    rw [hpadlen, List.map_append, List.map_replicate]
    norm_num
  by_cases hg0 : 0 < g
  · have hgInt : (0 : Int) < (g : Int) := by exact_mod_cast hg0
    have hg1len : g - 1 < (cs ++ List.replicate (g + 1 - cs.length) 0).length := by omega
    have hidx : (g : Int) - 1 = ((g - 1 : Nat) : Int) := by omega
    by_cases hv : 0 < (cs ++ List.replicate (g + 1 - cs.length) 0).getD (g - 1) 0
    · have hvInt : (0 : Int) < (((cs ++ List.replicate (g + 1 - cs.length) 0).getD (g - 1) 0 : Nat) : Int) := by
        exact_mod_cast hv
      have hsub : (((cs ++ List.replicate (g + 1 - cs.length) 0).getD (g - 1) 0 : Nat) : Int) - 1
          = (((cs ++ List.replicate (g + 1 - cs.length) 0).getD (g - 1) 0 - 1 : Nat) : Int) := by
        omega
      have hglen2 : g < ((cs ++ List.replicate (g + 1 - cs.length) 0).set (g - 1)
          ((cs ++ List.replicate (g + 1 - cs.length) 0).getD (g - 1) 0 - 1)).length := by
        rw [List.length_set]; exact hglen
      simp only [Counter.add, Counter.addN]
      rw [hpad]
      simp only [hidx, pyGet_map _ _ hg1len, if_pos hgInt, if_pos hvInt, hsub,
        pySet_map _ _ _ hg1len, if_pos (And.intro hg0 hv), natCast_add_one,
        pyGet_map _ _ hglen2, pySet_map _ _ _ hglen2]
    · have hv0 : (cs ++ List.replicate (g + 1 - cs.length) 0).getD (g - 1) 0 = 0 := by omega
      simp only [Counter.add, Counter.addN]
      rw [hpad]
      simp only [hidx, pyGet_map _ _ hg1len, if_pos hgInt, hv0, Nat.cast_zero,
        lt_self_iff_false, and_false, if_false, natCast_add_one,
        pyGet_map _ _ hglen, pySet_map _ _ _ hglen]
  · have hgz : g = 0 := by omega
    subst hgz
    have hnc0 : ¬ ((0 : Nat) < 0 ∧ 0 < (cs ++ List.replicate (0 + 1 - cs.length) 0).getD (0 - 1) 0) := by
      simp
    have hgInt0 : ¬ (0 : Int) < ((0 : Nat) : Int) := by norm_num
    simp only [Counter.add, Counter.addN]
    rw [hpad]
    simp only [if_neg hgInt0, if_neg hnc0, natCast_add_one,
      pyGet_map _ _ hglen, pySet_map _ _ _ hglen]

/-! ### The distinct-client invariant

A trace is a list of client identifiers, in the order in which the clients
successfully report.  A client reports generations 0, 1, 2, ... consecutively
(incrementing by exactly one per successful report, as `TestClient.increment`
does, lines 56-59), so the generation a client passes to `add` at its n-th
occurrence in the trace is n - 1, i.e. the number of its previous
occurrences.  `runFrom pre cs t` runs the remaining trace `t` against the
histogram `cs`, `pre` being the already-consumed prefix of the trace. -/

def numWith (pre : List Nat) (k : Nat) : Nat :=
  (pre.toFinset.filter fun c => pre.count c = k).card

def runFrom : List Nat → List Nat → List Nat → List Nat
  | _, cs, [] => cs
  | pre, cs, c :: rest => runFrom (pre ++ [c]) (Counter.addN cs (pre.count c)) rest

/-- The sequence of `Counter.add` calls produced by the clients of trace `t`,
starting from a fresh `Counter` (empty bucket list). -/
def runTrace (t : List Nat) : List Nat :=
  runFrom [] [] t

theorem toFinset_append_singleton (pre : List Nat) (c : Nat) :
    (pre ++ [c]).toFinset = insert c pre.toFinset := by
  ext x
  simp [or_comm]

theorem count_append_singleton (pre : List Nat) (c x : Nat) :
    (pre ++ [c]).count x = pre.count x + if x = c then 1 else 0 := by
  by_cases hxc : x = c
  · subst hxc
    simp [List.count_append, List.count_cons]
  · simp [List.count_append, List.count_cons, hxc, Ne.symm hxc]

theorem numWith_append_new (pre : List Nat) (c : Nat) (h : pre.count c = 0) (m : Nat) :
    numWith (pre ++ [c]) m = numWith pre m + if m = 1 then 1 else 0 := by
  have hcnot : c ∉ pre := List.count_eq_zero.mp h
  have hcS : c ∉ pre.toFinset := fun hc => hcnot (List.mem_toFinset.mp hc)
  unfold numWith
  rw [toFinset_append_singleton, Finset.filter_insert]
  have hS : pre.toFinset.filter (fun x => (pre ++ [c]).count x = m)
      = pre.toFinset.filter (fun x => pre.count x = m) := by
    apply Finset.filter_congr
    intro x hx
    have hxc : x ≠ c := fun e => hcS (e ▸ hx)
    rw [count_append_singleton, if_neg hxc, Nat.add_zero]
  have hpc : (pre ++ [c]).count c = 1 := by
    rw [count_append_singleton, h, if_pos rfl]
  by_cases hm : m = 1
  · rw [if_pos (by rw [hpc, hm]), hS,
      Finset.card_insert_of_not_mem (fun hc => hcS (Finset.mem_of_mem_filter _ hc)),
      if_pos hm]
  · rw [if_neg (by rw [hpc]; exact fun e => hm e.symm), hS, if_neg hm, Nat.add_zero]

theorem numWith_pos (pre : List Nat) (c : Nat) (h : 0 < pre.count c) :
    0 < numWith pre (pre.count c) := by
  have hc : c ∈ pre := List.count_pos_iff.mp h
  exact Finset.card_pos.mpr
    ⟨c, Finset.mem_filter.mpr ⟨List.mem_toFinset.mpr hc, rfl⟩⟩

theorem numWith_append_old (pre : List Nat) (c : Nat) (h : 0 < pre.count c) (m : Nat) :
    numWith (pre ++ [c]) m =
      numWith pre m + (if m = pre.count c + 1 then 1 else 0)
        - (if m = pre.count c then 1 else 0) := by
  have hc : c ∈ pre := List.count_pos_iff.mp h
  have hcS : c ∈ pre.toFinset := List.mem_toFinset.mpr hc
  have hS1 : c ∉ pre.toFinset.erase c := Finset.not_mem_erase c pre.toFinset
  have hins : insert c (pre.toFinset.erase c) = pre.toFinset := Finset.insert_erase hcS
  have hT : (pre ++ [c]).toFinset = insert c (pre.toFinset.erase c) := by
    rw [toFinset_append_singleton]
    nth_rewrite 1 [← hins]
    rw [Finset.insert_idem]
  have hfilter : (pre.toFinset.erase c).filter (fun x => (pre ++ [c]).count x = m)
      = (pre.toFinset.erase c).filter (fun x => pre.count x = m) := by
    apply Finset.filter_congr
    intro x hx
    rw [count_append_singleton, if_neg (Finset.ne_of_mem_erase hx), Nat.add_zero]
  have hnewc : (pre ++ [c]).count c = pre.count c + 1 := by
    rw [count_append_singleton, if_pos rfl]
  have hlhs : numWith (pre ++ [c]) m =
      (if m = pre.count c + 1 then 1 else 0)
        + ((pre.toFinset.erase c).filter (fun x => pre.count x = m)).card := by
    unfold numWith
    rw [hT, Finset.filter_insert, hfilter]
    by_cases hm : m = pre.count c + 1
    · rw [if_pos (by rw [hnewc, hm]), if_pos hm,
        Finset.card_insert_of_not_mem (fun hmem => hS1 (Finset.mem_of_mem_filter _ hmem))]
      omega
    · rw [if_neg (by rw [hnewc]; exact fun e => hm e.symm), if_neg hm]
      omega
  have hrhs : numWith pre m =
      (if m = pre.count c then 1 else 0)
        + ((pre.toFinset.erase c).filter (fun x => pre.count x = m)).card := by
    unfold numWith
    nth_rewrite 1 [← hins]
    rw [Finset.filter_insert]
    by_cases hm : m = pre.count c
    · rw [if_pos hm.symm, if_pos hm,
        Finset.card_insert_of_not_mem (fun hmem => hS1 (Finset.mem_of_mem_filter _ hmem))]
      omega
    · rw [if_neg (fun e => hm e.symm), if_neg hm]
      omega
  rw [hlhs, hrhs]
  by_cases hm1 : m = pre.count c + 1 <;> by_cases hm2 : m = pre.count c <;>
    simp only [hm1, hm2, if_pos, if_neg] <;> omega

theorem inv_step (pre cs : List Nat) (c : Nat)
    (h : ∀ g, cs.getD g 0 = numWith pre (g + 1)) :
    ∀ g, (Counter.addN cs (pre.count c)).getD g 0 = numWith (pre ++ [c]) (g + 1) := by
  intro g
  rw [addN_getD]
  by_cases hk0 : pre.count c = 0
  · rw [numWith_append_new pre c hk0]
    by_cases hg : g = pre.count c
    · rw [if_pos hg, h, hg, hk0]
      simp
    · rw [if_neg hg, if_neg (fun hc2 => hg (by omega)), h]
      have h1 : ¬ g + 1 = 1 := by omega
      rw [if_neg h1]
      omega
  · have hkpos : 0 < pre.count c := Nat.pos_of_ne_zero hk0
    rw [numWith_append_old pre c hkpos]
    by_cases hg : g = pre.count c
    · rw [if_pos hg, h]
      have h1 : g + 1 = pre.count c + 1 := by omega
      have h2 : ¬ g + 1 = pre.count c := by omega
      rw [if_pos h1, if_neg h2, h1]
      omega
    · by_cases hg1 : g = pre.count c - 1
      · rw [if_neg hg, if_pos ⟨hkpos, hg1⟩, h]
        have h1 : ¬ g + 1 = pre.count c + 1 := by omega
        have h2 : g + 1 = pre.count c := by omega
        rw [if_neg h1, if_pos h2, h2]
        omega
      · rw [if_neg hg, if_neg (fun hc2 => hg1 hc2.2), h]
        have h1 : ¬ g + 1 = pre.count c + 1 := by omega
        have h2 : ¬ g + 1 = pre.count c := by omega
        rw [if_neg h1, if_neg h2]
        omega

theorem runFrom_inv (t pre cs : List Nat)
    (h : ∀ g, cs.getD g 0 = numWith pre (g + 1)) :
    ∀ g, (runFrom pre cs t).getD g 0 = numWith (pre ++ t) (g + 1) := by
  induction t generalizing pre cs with
  | nil => simpa [runFrom] using h
  | cons c rest ih =>
    intro g
    have step := inv_step pre cs c h
    have := ih (pre ++ [c]) (Counter.addN cs (pre.count c)) step g
    simpa [runFrom] using this

theorem runTrace_inv (t : List Nat) :
    ∀ g, (runTrace t).getD g 0 = numWith t (g + 1) := by
  have h0 : ∀ g, ([] : List Nat).getD g 0 = numWith [] (g + 1) := by
    intro g
    simp [numWith, List.getD]
  simpa using runFrom_inv t [] [] h0

theorem sum_eq_range_getD (l : List Nat) :
    l.sum = ∑ i ∈ Finset.range l.length, l.getD i 0 := by
  induction l with
  | nil => simp
  | cons a l ih =>
    rw [List.sum_cons, List.length_cons, Finset.sum_range_succ']
    have h0 : (a :: l).getD 0 0 = a := rfl
    have hsucc : ∀ i : Nat, (a :: l).getD (i + 1) 0 = l.getD i 0 := fun i => rfl
    simp only [hsucc, h0]
    rw [← ih]
    omega

theorem numWith_zero (t : List Nat) : numWith t 0 = 0 := by
  unfold numWith
  rw [Finset.card_eq_zero, Finset.filter_eq_empty_iff]
  intro x hx
  have : 0 < t.count x := List.count_pos_iff.mpr (List.mem_toFinset.mp hx)
  omega

/-- The central harness invariant (`Simulator.test`, line 107): after any
trace of consecutive-generation reports, the histogram sums to the number of
distinct clients seen. -/
theorem runTrace_sum_eq_card (t : List Nat) :
    (runTrace t).sum = t.toFinset.card := by
  set L := runTrace t with hL
  have hinv := runTrace_inv t
  have hbound : ∀ x ∈ t.toFinset, t.count x ∈ Finset.range (L.length + 1) := by
    intro x hx
    rw [Finset.mem_range]
    by_contra hgt
    have hxpos : 0 < t.count x := List.count_pos_iff.mpr (List.mem_toFinset.mp hx)
    have hge : L.length ≤ t.count x - 1 := by omega
    have h1 : L.getD (t.count x - 1) 0 = 0 := getD_len_le L _ hge
    have h2 : L.getD (t.count x - 1) 0 = numWith t (t.count x) := by
      rw [hinv (t.count x - 1)]
      congr 1
      omega
    have h3 : 0 < numWith t (t.count x) := numWith_pos t x hxpos
    omega
  have hcard := Finset.card_eq_sum_card_fiberwise hbound
  have hfib : ∀ k, (t.toFinset.filter fun x => t.count x = k).card = numWith t k := by
    intro k
    rfl
  have hchain : ∑ k ∈ Finset.range (L.length + 1),
      (t.toFinset.filter fun x => t.count x = k).card = L.sum := by
    calc ∑ k ∈ Finset.range (L.length + 1), (t.toFinset.filter fun x => t.count x = k).card
        = ∑ k ∈ Finset.range (L.length + 1), numWith t k :=
          Finset.sum_congr rfl (fun k _ => hfib k)
      _ = ∑ k ∈ Finset.range L.length, numWith t (k + 1) + numWith t 0 :=
          Finset.sum_range_succ' _ _
      _ = ∑ k ∈ Finset.range L.length, L.getD k 0 := by
          rw [numWith_zero, Nat.add_zero]
          exact Finset.sum_congr rfl (fun k _ => (hinv k).symm)
      _ = L.sum := (sum_eq_range_getD L).symm
  rw [hcard]
  exact hchain.symm

/-! ### The ingestion pipeline (`State.update_from_log`, lines 144-190) -/

/-- Decimal value of a non-empty all-digit character list; `none` otherwise. -/
def digitsValAux : Nat → List Char → Option Nat
  | acc, [] => some acc
  | acc, ch :: rest =>
    if ch.isDigit then digitsValAux (acc * 10 + (ch.toNat - 48)) rest else none

def digitsVal : List Char → Option Nat
  | [] => none
  | cs => digitsValAux 0 cs

/-- Python `int(str)` (line 172): strips surrounding whitespace, then accepts
an optional single sign followed by a non-empty digit string; a negative
number such as `-1` parses fine.  `none` models the `ValueError` that the
code catches. -/
def pyInt (s : String) : Option Int :=
  let cs := ((s.toList.dropWhile Char.isWhitespace).reverse.dropWhile Char.isWhitespace).reverse
  match cs with
  | '-' :: rest => (digitsVal rest).map (fun n => -(n : Int))
  | '+' :: rest => (digitsVal rest).map (fun n : Nat => (n : Int))
  | _ => (digitsVal cs).map (fun n : Nat => (n : Int))

/-- Models `urlparse.parse_qs(query)[k][0]` (line 168): `parse_qs` keeps the
key/value pairs in order of occurrence and, with the default
`keep_blank_values=False`, drops pairs whose value is blank; `[0]` selects
the first value.  The query string is modelled after splitting on `&` and
`=` and percent-decoding, as an association list.  `none` models the
`KeyError` for an absent key (caught by the code). -/
def qsFirst (q : List (String × String)) (k : String) : Option String :=
  ((q.filter (fun p => p.1 == k && !(p.2 == ""))).head?).map (fun p => p.2)

/-- The `try` block of lines 169-175: `dcd = args['dcd'][0]`,
`assert len(dcd) > 0`, `count = int(args['count'][0])`, with `TypeError`,
`ValueError` and `KeyError` caught (diagnostic printed, line skipped).
Since `parse_qs` never yields a blank value, `qsFirst` never returns an
empty string and the `assert` cannot fire, so its uncaught
`AssertionError` path is unreachable and not modelled. -/
def parseQuery (q : List (String × String)) : Option (String × Int) :=
  match qsFirst q ("dcd") with
  | none => none
  | some dcd =>
    match qsFirst q ("count") with
    | none => none
    | some cstr =>
      match pyInt cstr with
      | none => none
      | some n => some (dcd, n)

/-- A log line, modelled at the outcome of `census_re.match` (line 149/159):
`noMatch` if the regex does not match (no dotted-quad client, not a
`GET /census?...` request, or a non-2xx status), otherwise the timestamp
field (`none` when `time.strptime` raises `ValueError` on it, line 162 —
an exception the code does not catch) and the parsed query pairs. -/
inductive Line where
  | noMatch : Line
  | matched : Option Int → List (String × String) → Line

/-- The durable store: the `last_update` table, the `counters` table
(channel → serialized bucket list; `none` = no row for that channel) and the
`history` table (channel → date → (day, count); `none` = no row). -/
@[ext]
structure Store where
  last_update : Int
  counters : String → Option (List Int)
  history : String → String → Option (Int × Int)

/-- The in-memory loop state of `update_from_log`: the running
`last_update`, the `channel_counters` dict, the `stats` dict, and the
number of `ERROR! Invalid census query` diagnostics printed. -/
@[ext]
structure LoopState where
  last_update : Int
  counters : String → Option (List Int)
  stats : String → String → Option (Int × Int)
  diag : Nat

/-- The body of the `for line in open(path)` loop (lines 158-184):

    m = census_re.match(line)
    if not m: continue
    timestamp = time.mktime(time.strptime(m.group(1), ...))   -- may raise
    if timestamp <= last_update: continue
    last_update = max(timestamp, last_update)
    args = urlparse.parse_qs(m.group(2))
    try: dcd = args['dcd'][0]; assert len(dcd) > 0; count = int(args['count'][0])
    except (TypeError, ValueError, KeyError): print 'ERROR! ...'; continue
    channel_counters.setdefault(dcd, Counter()).add(count)    -- may raise
    date = time.strftime('%Y-%m-%d', time.localtime(timestamp))
    st = stats.setdefault(dcd, {}).setdefault(date, [0,0])
    st[0] += 1
    st[1] = channel_counters[dcd].count()

`none` models an exception escaping the loop (which aborts the run before
any database write).  Note that `last_update` is raised *before* the query
is validated, so a fresh line with an invalid query still advances it. -/
def processLine (dateOf : Int → String) (st : LoopState) (l : Line) : Option LoopState :=
  match l with
  | Line.noMatch => some st
  | Line.matched tsOpt q =>
    match tsOpt with
    | none => none
    | some ts =>
      if ts ≤ st.last_update then some st
      else
        match parseQuery q with
        | none =>
          some { st with last_update := max ts st.last_update, diag := st.diag + 1 }
        | some dc =>
          match Counter.add ((st.counters dc.1).getD []) dc.2 with
          | none => none
          | some cs2 =>
            match Counter.count cs2 with
            | none => none
            | some tot =>
              some { last_update := max ts st.last_update,
                     counters := fun ch => if ch = dc.1 then some cs2 else st.counters ch,
                     stats := fun ch d =>
                       if ch = dc.1 ∧ d = dateOf ts then
                         some (((st.stats dc.1 (dateOf ts)).getD (0, 0)).1 + 1, tot)
                       else st.stats ch d,
                     diag := st.diag }

def runLines (dateOf : Int → String) : LoopState → List Line → Option LoopState
  | st, [] => some st
  | st, l :: rest =>
    match processLine dateOf st l with
    | none => none
    | some st2 => runLines dateOf st2 rest

/-- `_current_stats` (lines 266-282): the history rows whose date equals
`strftime('%Y-%m-%d', localtime(last_update))`, as a channel → date map. -/
def restrictStats (h : String → String → Option (Int × Int)) (d : String) :
    String → String → Option (Int × Int) :=
  fun ch dt => if dt = d then h ch dt else none

/-- `_set_current_stats` (lines 284-291): `INSERT OR REPLACE` of every
`(channel, date)` entry of the stats dict into the history table. -/
def mergeStats (h sd : String → String → Option (Int × Int)) :
    String → String → Option (Int × Int) :=
  fun ch dt =>
    match sd ch dt with
    | some v => some v
    | none => h ch dt

/-- `State.update_from_log(path)` (lines 144-190): read `last_update`, all
channel counters (`_counters_from_db`) and the current-date history rows
(`_current_stats`); run the loop over the lines of the log; then write back
`last_update`, replace the counters table with the dict (which was seeded
with every channel read from the db, so replacement merges), merge the stats
dict into history, and commit.  `none` models an uncaught exception, which
aborts the run before the write-back, leaving the database unchanged.
`dateOf` stands for the external `time.strftime('%Y-%m-%d', localtime(.))`. -/
def update_from_log (dateOf : Int → String) (s : Store) (log : List Line) : Option Store :=
  match runLines dateOf
      { last_update := s.last_update, counters := fun ch => s.counters ch,
        stats := restrictStats s.history (dateOf s.last_update), diag := 0 } log with
  | none => none
  | some st =>
    some { last_update := st.last_update, counters := st.counters,
           history := mergeStats s.history st.stats }

/-! ### Loop lemmas -/

/-- A line the loop passes over without touching the state: a non-matching
line, or a matched line whose timestamp parses and is at most `lu`. -/
def Skippable (lu : Int) : Line → Prop
  | Line.noMatch => True
  | Line.matched none _ => False
  | Line.matched (some ts) _ => ts ≤ lu

theorem skippable_mono {lu lu2 : Int} (h : lu ≤ lu2) :
    ∀ {l : Line}, Skippable lu l → Skippable lu2 l := by
  intro l hl
  cases l with
  | noMatch => trivial
  | matched tsOpt q =>
    cases tsOpt with
    | none => exact (hl : False).elim
    | some ts => exact le_trans (hl : ts ≤ lu) h

theorem processLine_skippable {dateOf : Int → String} {st : LoopState} {l : Line}
    (h : Skippable st.last_update l) : processLine dateOf st l = some st := by
  cases l with
  | noMatch => rfl
  | matched tsOpt q =>
    cases tsOpt with
    | none => exact (h : False).elim
    | some ts =>
      have hts : ts ≤ st.last_update := h
      simp only [processLine]
      rw [if_pos hts]

theorem processLine_mono {dateOf : Int → String} {st : LoopState} {l : Line}
    {st2 : LoopState} (h : processLine dateOf st l = some st2) :
    st.last_update ≤ st2.last_update := by
  cases l with
  | noMatch =>
    simp only [processLine] at h
    cases h
    exact le_refl _
  | matched tsOpt q =>
    cases tsOpt with
    | none => exact Option.noConfusion h
    | some ts =>
      simp only [processLine] at h
      by_cases hts : ts ≤ st.last_update
      · rw [if_pos hts] at h
        cases h
        exact le_refl _
      · rw [if_neg hts] at h
        split at h
        · cases h
          exact le_max_right ts st.last_update
        · split at h
          · exact Option.noConfusion h
          · split at h
            · exact Option.noConfusion h
            · cases h
              exact le_max_right ts st.last_update

theorem processLine_result_skippable {dateOf : Int → String} {st : LoopState}
    {l : Line} {st2 : LoopState} (h : processLine dateOf st l = some st2) :
    Skippable st2.last_update l := by
  cases l with
  | noMatch => trivial
  | matched tsOpt q =>
    cases tsOpt with
    | none => exact Option.noConfusion h
    | some ts =>
      show ts ≤ st2.last_update
      simp only [processLine] at h
      by_cases hts : ts ≤ st.last_update
      · rw [if_pos hts] at h
        cases h
        exact hts
      · rw [if_neg hts] at h
        split at h
        · cases h
          exact le_max_left ts st.last_update
        · split at h
          · exact Option.noConfusion h
          · split at h
            · exact Option.noConfusion h
            · cases h
              exact le_max_left ts st.last_update

theorem runLines_mono {dateOf : Int → String} :
    ∀ {log : List Line} {st st2 : LoopState},
      runLines dateOf st log = some st2 → st.last_update ≤ st2.last_update := by
  intro log
  induction log with
  | nil =>
    intro st st2 h
    cases h
    exact le_refl _
  | cons l rest ih =>
    intro st st2 h
    simp only [runLines] at h
    cases hp : processLine dateOf st l with
    | none => rw [hp] at h; exact Option.noConfusion h
    | some st1 =>
      rw [hp] at h
      exact le_trans (processLine_mono hp) (ih h)

theorem runLines_all_skippable {dateOf : Int → String} :
    ∀ {log : List Line} {st st2 : LoopState},
      runLines dateOf st log = some st2 → ∀ l ∈ log, Skippable st2.last_update l := by
  intro log
  induction log with
  | nil =>
    intro st st2 _ l hl
    simp at hl
  | cons l0 rest ih =>
    intro st st2 h l hl
    simp only [runLines] at h
    cases hp : processLine dateOf st l0 with
    | none => rw [hp] at h; exact Option.noConfusion h
    | some st1 =>
      rw [hp] at h
      rcases List.mem_cons.mp hl with rfl | hmem
      · exact skippable_mono (runLines_mono h) (processLine_result_skippable hp)
      · exact ih h l hmem

theorem runLines_skip_all {dateOf : Int → String} :
    ∀ {log : List Line} {st : LoopState},
      (∀ l ∈ log, Skippable st.last_update l) → runLines dateOf st log = some st := by
  intro log
  induction log with
  | nil => intro st _; rfl
  | cons l0 rest ih =>
    intro st hall
    simp only [runLines]
    rw [processLine_skippable (hall l0 (List.mem_cons_self l0 rest))]
    exact ih (fun l hl => hall l (List.mem_cons_of_mem l0 hl))

theorem runLines_append {dateOf : Int → String} :
    ∀ (a b : List Line) (st : LoopState),
      runLines dateOf st (a ++ b) =
        match runLines dateOf st a with
        | none => none
        | some st1 => runLines dateOf st1 b := by
  intro a
  induction a with
  | nil => intro b st; rfl
  | cons l rest ih =>
    intro b st
    simp only [List.cons_append, runLines]
    cases hp : processLine dateOf st l with
    | none => rfl
    | some st1 => exact ih b st1

theorem mergeStats_restrict (h : String → String → Option (Int × Int)) (d : String) :
    mergeStats h (restrictStats h d) = h := by
  funext ch dt
  unfold mergeStats restrictStats
  by_cases hd : dt = d
  · rw [if_pos hd]
    cases hh : h ch dt <;> rfl
  · rw [if_neg hd]

/-- Inserting a line that every reachable loop state skips does not change
the run. -/
theorem runLines_removable (dateOf : Int → String) (st : LoopState) (l : Line)
    (log1 log2 : List Line) (h : ∀ lu : Int, st.last_update ≤ lu → Skippable lu l) :
    runLines dateOf st (log1 ++ l :: log2) = runLines dateOf st (log1 ++ log2) := by
  rw [runLines_append, runLines_append]
  cases h1 : runLines dateOf st log1 with
  | none => rfl
  | some st1 =>
    have hskip : Skippable st1.last_update l := h st1.last_update (runLines_mono h1)
    show runLines dateOf st1 (l :: log2) = runLines dateOf st1 log2
    simp only [runLines]
    rw [processLine_skippable hskip]

/-! ### Helpers for `Counter.count` and `runTrace` -/

theorem foldl_add_eq (xs : List Int) : ∀ a : Int, xs.foldl (fun x y => x + y) a = a + xs.sum := by
  induction xs with
  | nil => intro a; simp
  | cons y ys ih =>
    intro a
    simp only [List.foldl_cons, List.sum_cons]
    rw [ih]
    ring

theorem count_eq_sum (cs : List Int) (h : cs ≠ []) : Counter.count cs = some cs.sum := by
  cases cs with
  | nil => exact absurd rfl h
  | cons x xs =>
    simp only [Counter.count]
    rw [foldl_add_eq, List.sum_cons]

theorem sum_map_natCast (l : List Nat) :
    (l.map fun n : Nat => (n : Int)).sum = ((l.sum : Nat) : Int) := by
  induction l with
  | nil => simp
  | cons x xs ih =>
    rw [List.map_cons, List.sum_cons, List.sum_cons, ih]
    push_cast
    ring

theorem count_map_natCast (l : List Nat) (h : l ≠ []) :
    Counter.count (l.map fun n : Nat => (n : Int)) = some ((l.sum : Nat) : Int) := by
  have hmap : l.map (fun n : Nat => (n : Int)) ≠ [] := by
    cases l with
    | nil => exact absurd rfl h
    | cons x xs => simp
  rw [count_eq_sum _ hmap, sum_map_natCast]

theorem runFrom_length (t : List Nat) : ∀ pre cs : List Nat,
    cs.length ≤ (runFrom pre cs t).length := by
  induction t with
  | nil => intro pre cs; exact le_refl _
  | cons c rest ih =>
    intro pre cs
    refine le_trans ?_ (ih (pre ++ [c]) (Counter.addN cs (pre.count c)))
    rw [addN_length]
    exact le_max_left _ _

theorem runTrace_ne_nil (t : List Nat) (h : t ≠ []) : runTrace t ≠ [] := by
  cases t with
  | nil => exact absurd rfl h
  | cons c rest =>
    have h3 := runFrom_length rest ([] ++ [c]) (Counter.addN [] (([] : List Nat).count c))
    have h4 : 0 < (Counter.addN [] (([] : List Nat).count c)).length := by
      rw [addN_length]
      exact lt_of_lt_of_le (Nat.succ_pos _) (le_max_right _ _)
    exact List.length_pos.mp (lt_of_lt_of_le h4 h3)

/-! ### Concrete instances used by witnesses and counterexamples -/

/-- A concrete stand-in for `strftime('%Y-%m-%d', localtime(t))`. -/
def dEx : Int → String := fun _ => ("d")

def emptyStore : Store :=
  { last_update := 0, counters := fun _ => none, history := fun _ _ => none }

def emptyState : LoopState :=
  { last_update := 0, counters := fun _ => none, stats := fun _ _ => none, diag := 0 }

/-- A valid census line at time `t` with `dcd=stable` and `count=0`. -/
def goodLine (t : Int) : Line :=
  Line.matched (some t) [("dcd", "stable"), ("count", "0")]

/-- The store produced by ingesting `[goodLine 100]` into the empty store. -/
def S1ex : Store :=
  { last_update := 100,
    counters := fun ch => if ch = "stable" then some [1] else none,
    history := mergeStats (fun _ _ => none)
      (fun ch d =>
        if ch = "stable" ∧ d = "d" then some (1, 1)
        else if d = "d" then none else none) }

/-! ### Claim theorems -/

/-- C2: for every histogram state and every generation `g ≥ 0`, `update(g)`
grows the bucket sequence so that index `g` exists (new length
`max (old length) (g+1)`, missing entries zero), decrements `bucket[g-1]`
by 1 iff `g > 0` and `bucket[g-1] > 0`, and increments `bucket[g]` by 1
unconditionally; from the empty histogram `update(0)` gives `bucket = [1]`
(total 1), a subsequent `update(1)` gives `bucket = [0, 1]` (total 1), and
two `update(0)` calls from empty give `bucket = [2]` (total 2). -/
theorem addN_spec :
    (∀ (cs : List Nat) (g : Nat), (Counter.addN cs g).length = max cs.length (g + 1)) ∧
    (∀ (cs : List Nat) (g i : Nat),
      (Counter.addN cs g).getD i 0 =
        if i = g then cs.getD g 0 + 1
        else if 0 < g ∧ i = g - 1 then
          (if 0 < cs.getD (g - 1) 0 then cs.getD (g - 1) 0 - 1 else cs.getD (g - 1) 0)
        else cs.getD i 0) ∧
    Counter.addN [] 0 = [1] ∧ (Counter.addN [] 0).sum = 1 ∧
    Counter.addN [1] 1 = [0, 1] ∧ (Counter.addN [1] 1).sum = 1 ∧
    Counter.addN (Counter.addN [] 0) 0 = [2] ∧ (Counter.addN (Counter.addN [] 0) 0).sum = 2 := by
  refine ⟨addN_length, ?_, by decide, by decide, by decide, by decide, by decide, by decide⟩
  intro cs g i
  rw [addN_getD]
  by_cases hig : i = g
  · rw [if_pos hig, if_pos hig]
  · rw [if_neg hig, if_neg hig]
    by_cases hc : 0 < g ∧ i = g - 1
    · have hi : i = g - 1 := hc.2
      subst hi
      rw [if_pos hc, if_pos hc]
      by_cases hv : 0 < cs.getD (g - 1) 0
      · rw [if_pos hv]
      · rw [if_neg hv]
        omega
    · rw [if_neg hc, if_neg hc]

/-- C1 counterexample: for the empty report sequence no client has reported
yet, so the claimed total is 0; but `total()` on the fresh histogram is
`reduce` over an empty bucket list, which raises `TypeError` instead of
returning 0. -/
theorem count_runTrace_nil_raises :
    Counter.count ((runTrace []).map fun n : Nat => (n : Int)) = none := rfl

/-- C1 (amended): for every non-empty sequence of `update(g)` calls in which
each client reports generations 0, 1, 2, ... consecutively (arbitrary
interleaving and skipped ticks), `total()` returns exactly the number of
distinct clients that have reported at least once.  (For the empty sequence
`total()` raises, since the bucket list is empty — see the counterexample.) -/
theorem count_runTrace_eq_card (t : List Nat) (h : t ≠ []) :
    Counter.count ((runTrace t).map fun n : Nat => (n : Int))
      = some ((t.toFinset.card : Nat) : Int) := by
  rw [count_map_natCast _ (runTrace_ne_nil t h), runTrace_sum_eq_card]

theorem count_runTrace_eq_card_witness :
    Counter.count ((runTrace [7]).map fun n : Nat => (n : Int))
      = some ((([7] : List Nat).toFinset.card : Nat) : Int) :=
  count_runTrace_eq_card [7] (by decide)

/-- C7 counterexample: on the empty histogram (a channel with no buckets),
`total()` is `reduce(operator.add, [])`, which raises `TypeError`; the claim
says it returns 0 without error. -/
theorem count_nil_raises : Counter.count [] = none := rfl

/-- C7 (amended): for every non-empty bucket list, `total()` returns the sum
of all bucket values and does not raise; on the empty histogram it raises
`TypeError` (see the counterexample). -/
theorem count_nonempty_returns_sum (cs : List Int) (h : cs ≠ []) :
    Counter.count cs = some cs.sum :=
  count_eq_sum cs h

theorem count_nonempty_returns_sum_witness :
    Counter.count [2, 3] = some (([2, 3] : List Int).sum) :=
  count_nonempty_returns_sum [2, 3] (by decide)

/-- C3 counterexample: two valid lines both carrying timestamp 100, both
greater than the start-of-run watermark 0.  The claim says both are
ingested (the channel histogram would be `[2]`); in fact the second line is
compared against the *running* `last_update`, already raised to 100 by the
first line, and is skipped, leaving `[1]`. -/
theorem same_ts_second_skipped :
    (update_from_log dEx emptyStore [goodLine 100, goodLine 100]).map
      (fun s => s.counters ("stable")) = some (some [1]) := rfl

/-- C3 (amended): the skip threshold during a run is the running
`last_update`, not the watermark as of the start of the run: a successfully
parsed line whose timestamp is ≤ the start-of-run watermark is always
skipped with no effect (this theorem), but a line above the start-of-run
watermark is applied only if its timestamp also exceeds the running
`last_update`, which is raised to each processed fresh line's timestamp —
so of two valid same-timestamp lines in one run, only the first is ingested
(see the counterexample). -/
theorem stale_line_skipped (dateOf : Int → String) (s : Store) (log1 log2 : List Line)
    (ts : Int) (q : List (String × String)) (h : ts ≤ s.last_update) :
    update_from_log dateOf s (log1 ++ Line.matched (some ts) q :: log2)
      = update_from_log dateOf s (log1 ++ log2) := by
  unfold update_from_log
  rw [runLines_removable dateOf
    { last_update := s.last_update, counters := fun ch => s.counters ch,
      stats := restrictStats s.history (dateOf s.last_update), diag := 0 }
    (Line.matched (some ts) q) log1 log2
    (fun lu hle => le_trans h hle)]

theorem stale_line_skipped_witness :
    update_from_log dEx S1ex ([] ++ Line.matched (some 50) [] :: [])
      = update_from_log dEx S1ex ([] ++ []) :=
  stale_line_skipped dEx S1ex [] [] 50 [] (by decide)

/-- C4 counterexample: a line matching the census regex whose timestamp
field `strptime` cannot parse.  The claim says it is treated as a parse
failure and the run continues; in fact the `ValueError` raised at line 162
is outside the `try` block, so it escapes and aborts the whole run. -/
theorem bad_timestamp_aborts :
    update_from_log dEx emptyStore [Line.matched none []] = none := rfl

/-- C4 (amended): (i) a line that does not match the census regex is
skipped silently — no diagnostic and no state change; (ii) a matched line
with a fresh parseable timestamp whose query is missing `dcd` or `count`
(or whose count is non-numeric) emits one diagnostic and is excluded from
the histogram and history, but still advances the running watermark;
(iii) a matched line with an unparseable timestamp raises an uncaught
exception, aborting the run (see the counterexample). -/
theorem parse_failure_behavior :
    (∀ (dateOf : Int → String) (st : LoopState),
      processLine dateOf st Line.noMatch = some st) ∧
    (∀ (dateOf : Int → String) (st : LoopState) (ts : Int) (q : List (String × String)),
      parseQuery q = none → st.last_update < ts →
      processLine dateOf st (Line.matched (some ts) q)
        = some { st with last_update := max ts st.last_update, diag := st.diag + 1 }) ∧
    (∀ (dateOf : Int → String) (st : LoopState) (q : List (String × String)),
      processLine dateOf st (Line.matched none q) = none) := by
  refine ⟨fun _ _ => rfl, ?_, fun _ _ _ => rfl⟩
  intro dateOf st ts q hq hts
  simp only [processLine]
  rw [if_neg (not_le.mpr hts), hq]

theorem parse_failure_behavior_witness :
    processLine dEx emptyState (Line.matched (some 100) [])
      = some { emptyState with
                 last_update := max 100 emptyState.last_update,
                 diag := emptyState.diag + 1 } :=
  parse_failure_behavior.2.1 dEx emptyState 100 [] rfl (by decide)

/-- C5: re-running the ingestion of the same log against the store it
produced returns exactly the same store — identical watermark, histograms
and daily history.  (Every line of the log is either non-matching or has a
timestamp at most the final watermark, so the second run skips everything;
a successful first run also guarantees no line aborts the second run.) -/
theorem update_from_log_idempotent (dateOf : Int → String) (s s1 : Store) (log : List Line)
    (h : update_from_log dateOf s log = some s1) :
    update_from_log dateOf s1 log = some s1 := by
  unfold update_from_log at h
  cases hrun : runLines dateOf
      { last_update := s.last_update, counters := fun ch => s.counters ch,
        stats := restrictStats s.history (dateOf s.last_update), diag := 0 } log with
  | none => rw [hrun] at h; exact Option.noConfusion h
  | some st =>
    rw [hrun] at h
    have h2 : ({ last_update := st.last_update,
                 counters := st.counters,
                 history := mergeStats s.history st.stats } : Store) = s1 :=
      Option.some.inj h
    have hall : ∀ l ∈ log, Skippable st.last_update l := runLines_all_skippable hrun
    have hlu : s1.last_update = st.last_update := by rw [← h2]
    have hall2 : ∀ l ∈ log, Skippable
        ({ last_update := s1.last_update, counters := fun ch => s1.counters ch,
           stats := restrictStats s1.history (dateOf s1.last_update),
           diag := 0 } : LoopState).last_update l := by
      intro l hl
      have hsk : Skippable s1.last_update l := by rw [hlu]; exact hall l hl
      exact hsk
    unfold update_from_log
    rw [runLines_skip_all hall2]
    refine congrArg some ?_
    refine Store.ext rfl rfl ?_
    exact mergeStats_restrict s1.history (dateOf s1.last_update)

theorem update_from_log_idempotent_witness :
    update_from_log dEx S1ex [goodLine 100] = some S1ex :=
  update_from_log_idempotent dEx emptyStore S1ex [goodLine 100] rfl

/-- C6: the failing input is a fresh census line `dcd=stable&count=-1` for a
channel with no histogram yet.  `int('-1')` succeeds — the parser does not
reject negative counts — and `add(-1)` is invoked: it pads nothing, skips
the decrement (`generation > 0` is false), and `counters[-1] += 1` indexes
an empty list, raising an uncaught `IndexError` that aborts the run.  The
claim (and the spec contract `count ≥ 0`, validated by the caller) instead
requires the line to be rejected as a parse failure with the run
continuing. -/
theorem negative_count_aborts :
    update_from_log dEx emptyStore
      [Line.matched (some 100) [("dcd", "stable"), ("count", "-1")]] = none := rfl

/-- C8: the stored watermark never decreases across a successful ingestion
run: the loop only ever replaces `last_update` by `max timestamp
last_update`. -/
theorem watermark_monotone (dateOf : Int → String) (s s2 : Store) (log : List Line)
    (h : update_from_log dateOf s log = some s2) :
    s.last_update ≤ s2.last_update := by
  unfold update_from_log at h
  cases hrun : runLines dateOf
      { last_update := s.last_update, counters := fun ch => s.counters ch,
        stats := restrictStats s.history (dateOf s.last_update), diag := 0 } log with
  | none => rw [hrun] at h; exact Option.noConfusion h
  | some st =>
    rw [hrun] at h
    have h2 : ({ last_update := st.last_update,
                 counters := st.counters,
                 history := mergeStats s.history st.stats } : Store) = s2 :=
      Option.some.inj h
    have h3 := runLines_mono hrun
    rw [← h2]
    exact h3

theorem watermark_monotone_witness : emptyStore.last_update ≤ S1ex.last_update :=
  watermark_monotone dEx emptyStore S1ex [goodLine 100] rfl

/-- C10: a line the census regex does not match (not a GET of `/census`
from a dotted-quad client logged with a 2xx status) is passed over by
`continue` before anything happens: the loop state — every histogram, the
running watermark, the daily stats, and the diagnostic count — is untouched,
and removing such a line from a run does not change the resulting store. -/
theorem nonmatching_line_no_effect :
    (∀ (dateOf : Int → String) (st : LoopState),
      processLine dateOf st Line.noMatch = some st) ∧
    (∀ (dateOf : Int → String) (s : Store) (log1 log2 : List Line),
      update_from_log dateOf s (log1 ++ Line.noMatch :: log2)
        = update_from_log dateOf s (log1 ++ log2)) := by
  constructor
  · intro _ _
    rfl
  · intro dateOf s log1 log2
    unfold update_from_log
    rw [runLines_removable dateOf
      { last_update := s.last_update, counters := fun ch => s.counters ch,
        stats := restrictStats s.history (dateOf s.last_update), diag := 0 }
      Line.noMatch log1 log2 (fun _ _ => trivial)]

end Ubucount
